import Mathlib

/-!
Verification of the cpj parallel directory-copy program.

The program copies a directory tree with a bounded pool of workers that
drain a shared LIFO job queue (two parallel stacks of source and
destination paths, guarded by one mutex), report per-file failures and
their own completion over a channel, and an aggregation loop in
`jobDispatcher` that collects the failures until every worker has
signalled completion.

Shallow embedding conventions:
- Go strings are `List Char` (`GoStr`); Go `nil` pointers to `stack.Stack`
  are the `none` of `Option stack.Stack`.
- The external collaborators (`cp.AbsolutePath`, `os.Lstat`,
  `cp.CopyFile`, `filepath.Walk`) are oracles packaged in `FSModel`;
  the program treats them as opaque primitives.
- Concurrency is a small-step semantics: a scheduler word (`List Nat`)
  picks which worker takes its next atomic step.  The mutex-protected
  claim (copyRoutine lines 207-218) is one step; the copy together with
  its outcome report is another.  The channel is the append-only list of
  messages in send order; the aggregation loop of `jobDispatcher`
  consumes that list in order.  The channel is never closed by the
  program, so a `range` loop that has consumed every message that will
  ever be sent without reaching its return blocks forever; the embedding
  returns `none` for that.
-/

/-- A Go string. -/
abbrev GoStr := List Char

namespace stack

/-- Go: `type Stack []string` (stack.go line 5). -/
abbrev Stack := List GoStr

/-- Go: `func Push(stk *Stack, val string) *Stack` (stack.go lines 7-18).
A nil pointer is reported and returned as nil; otherwise `val` is appended. -/
def Push (stk : Option Stack) (val : GoStr) : Option Stack :=
  match stk with
  | none => none
  | some l => some (l ++ [val])

/-- Go: `func Pop(stk *Stack) (string, *Stack)` (stack.go lines 20-27).
A nil or empty stack yields `("", nil)`; otherwise the last element is
removed and returned together with the shortened stack. -/
def Pop (stk : Option Stack) : GoStr × Option Stack :=
  match stk with
  | none => ([], none)
  | some [] => ([], none)
  | some (a :: l) => ((a :: l).getLast (List.cons_ne_nil a l), some (a :: l).dropLast)

end stack

namespace strings

/-- Go: `strings.HasSuffix(s, suffix)`. -/
def HasSuffix (s suffix : GoStr) : Bool := suffix.isSuffixOf s

/-- Go: `strings.HasPrefix(s, pre)` (used by TrimPrefix). -/
def HasPrefix (s pre : GoStr) : Bool := pre.isPrefixOf s

/-- Go: `strings.TrimPrefix(s, pre)`: `s` without the leading `pre` when
present, `s` unchanged otherwise. -/
def TrimPrefix (s pre : GoStr) : GoStr :=
  if HasPrefix s pre then s.drop pre.length else s

/-- Go: `strings.Join(elems, sep)`. -/
def Join (elems : List GoStr) (sep : GoStr) : GoStr := List.intercalate sep elems

end strings

/-- One visit of `filepath.Walk`: the path handed to the walk function and
whether `info.IsDir()` holds.  The oracle `FSModel.walk` lists the visits in
the traversal's (depth-first) order; the walk is error-free, since a
traversal error aborts the whole run (`log.Fatal`). -/
structure WalkEntry where
  path : GoStr
  isDir : Bool
deriving DecidableEq, Repr

/-- Go: `countFiles` (part_000 lines 158-169) folded over the walk's visit
sequence: every non-directory entry increments the counter. -/
def countFiles (entries : List WalkEntry) : Nat :=
  entries.foldl (fun count e => if e.isDir then count else count + 1) 0

/-- Go: `visitDirectory` (part_000 lines 171-191) folded over the walk's
visit sequence: every non-directory entry is pushed onto the stack. -/
def visitDirectory (entries : List WalkEntry) (files : Option stack.Stack) :
    Option stack.Stack :=
  entries.foldl (fun files e => if e.isDir then files else stack.Push files e.path) files

/-- Go: `recurseFileTree` (part_000 lines 150-156): walk the directory with
`visitDirectory` starting from the supplied stack. -/
def recurseFileTree (entries : List WalkEntry) (stk : stack.Stack) : Option stack.Stack :=
  visitDirectory entries (some stk)

/-- Lines 119-128 of `parallelCopy`: give `srcAbs` a trailing separator if it
has none, then strip it from the front of every listed path. -/
def stripSrcRoot (srcAbs : GoStr) (files : List GoStr) : List GoStr :=
  let srcAbs := if !(strings.HasSuffix srcAbs ['/']) then strings.Join [srcAbs, ['/']] [] else srcAbs
  files.map (fun file => strings.TrimPrefix file srcAbs)

/-- Lines 129-138 of `parallelCopy`: give `destAbs` a trailing separator if it
has none, then glue it onto the front of every listed path. -/
def addDestRoot (destAbs : GoStr) (files : List GoStr) : List GoStr :=
  let destAbs := if !(strings.HasSuffix destAbs ['/']) then strings.Join [destAbs, ['/']] [] else destAbs
  files.map (fun file => strings.Join [destAbs, file] [])

/-- The path mapper of `parallelCopy` (lines 119-138): strip the source root,
substitute the destination root. -/
def mapDestPaths (srcAbs destAbs : GoStr) (files : List GoStr) : List GoStr :=
  addDestRoot destAbs (stripSrcRoot srcAbs files)

/-- Go: the locked `copyJob` struct (part_000 lines 16-19); the mutex itself
is modelled by the claim being a single atomic step of the semantics. -/
structure copyJob where
  src : Option stack.Stack
  dest : Option stack.Stack
deriving DecidableEq, Repr

/-- Go: the `copyError` message (part_000 lines 21-25).  `err = none` is the
nil error of a completion message. -/
structure copyError where
  id : Nat
  src : GoStr
  dest : GoStr
  err : Option GoStr
deriving DecidableEq, Repr

/-- The claim of copyRoutine lines 207-218, performed under `jobs.mu`:
pop both stacks; a nil source stack afterwards signals the empty queue. -/
def claim (j : copyJob) : (GoStr × GoStr) × copyJob :=
  let src := stack.Pop j.src
  let dest := stack.Pop j.dest
  ((src.1, dest.1), ⟨src.2, dest.2⟩)

/-- Where a worker stands in the loop of `copyRoutine` (lines 203-233):
about to claim, about to run `cp.CopyFile` on a claimed pair, or returned. -/
inductive WStatus where
  | ready
  | copying (src dest : GoStr)
  | done
deriving DecidableEq, Repr

/-- The shared state of one dispatched run: the locked job queue, each
worker's position in its loop, the outcome channel (messages in send
order), and two ghost traces - the successful `cp.CopyFile` calls and the
successful claims (with the claiming worker's id). -/
structure PoolState where
  jobs : copyJob
  workers : List WStatus
  chan : List copyError
  copies : List (GoStr × GoStr)
  claimed : List (Nat × (GoStr × GoStr))
deriving DecidableEq, Repr

/-- The completion message `copyError{id: id, err: nil, src: "", dest: ""}`
of copyRoutine line 214. -/
def completedEv (i : Nat) : copyError := ⟨i, [], [], none⟩

/-- One atomic step of worker `i` in `copyRoutine` (part_000 lines 193-234),
parameterized by the `cp.CopyFile` oracle `cf` and the flags.
A `ready` worker runs the locked claim: on a nil source stack it sends the
completion message and returns (lines 210-217), otherwise it holds the
popped pair.  A `copying` worker runs `cp.CopyFile` outside the lock
(lines 225-231): on success it loops; on failure it sends the failure
message and then loops when `cont` is set or returns when it is not.
A worker that has returned, or an index with no worker, does nothing. -/
def workerStep (cf : GoStr → GoStr → Bool → Option GoStr) (cont link : Bool)
    (s : PoolState) (i : Nat) : PoolState :=
  match s.workers[i]? with
  | some WStatus.ready =>
    let c := claim s.jobs
    if c.2.src = none then
      { s with jobs := c.2,
               workers := s.workers.set i WStatus.done,
               chan := s.chan ++ [completedEv i] }
    else
      { s with jobs := c.2,
               workers := s.workers.set i (WStatus.copying c.1.1 c.1.2),
               claimed := s.claimed ++ [(i, c.1)] }
  | some (WStatus.copying src dest) =>
    match cf src dest link with
    | none =>
      { s with copies := s.copies ++ [(src, dest)],
               workers := s.workers.set i WStatus.ready }
    | some e =>
      { s with chan := s.chan ++ [⟨i, src, dest, some e⟩],
               workers := s.workers.set i (if cont then WStatus.ready else WStatus.done) }
  | _ => s

/-- Run the worker pool under a schedule: each entry names the worker that
takes the next atomic step. -/
def runPool (cf : GoStr → GoStr → Bool → Option GoStr) (cont link : Bool)
    (s : PoolState) (sched : List Nat) : PoolState :=
  sched.foldl (workerStep cf cont link) s

/-- The state `jobDispatcher` sets up before spawning (lines 240-260): the
queue holds both full lists, `w` workers stand at the top of their loops,
the channel is empty. -/
def initState (src dest : List GoStr) (w : Nat) : PoolState :=
  { jobs := ⟨some src, some dest⟩,
    workers := List.replicate w WStatus.ready,
    chan := [], copies := [], claimed := [] }

/-- Every worker has returned. -/
def allDone (s : PoolState) : Prop := ∀ w ∈ s.workers, w = WStatus.done

instance (s : PoolState) : Decidable (allDone s) :=
  inferInstanceAs (Decidable (∀ w ∈ s.workers, w = WStatus.done))

/-- The aggregation loop of `jobDispatcher` (lines 261-281) over the
messages of the outcome channel, in order: a failure message is appended
to `ret`; a completion message decrements `total`, and the loop returns
`ret` when `total` reaches zero.  The program never closes the channel, so
once the messages are exhausted without `total` reaching zero the `range`
loop blocks forever: `none`. -/
def dispatchLoop : List copyError → Int → List GoStr → Option (List GoStr)
  | [], _, _ => none
  | e :: es, total, ret =>
    match e.err with
    | some er => dispatchLoop es total (ret ++ [er])
    | none => if total - 1 = 0 then some ret else dispatchLoop es (total - 1) ret

/-- Lines 241-245 of `jobDispatcher`: never spawn more workers than jobs. -/
def clampJobs (jobs size : Int) : Int := if jobs > size then size else jobs

/-- Go: `jobDispatcher` (part_000 lines 236-282): clamp the worker count,
spawn the workers (their interleaving is the schedule), aggregate the
channel.  The pair is the aggregation loop's result (`none` = it blocks
forever) and the final pool state. -/
def jobDispatcher (src dest : stack.Stack) (link cont _verbose : Bool) (jobs : Int)
    (cf : GoStr → GoStr → Bool → Option GoStr) (sched : List Nat) :
    Option (List GoStr) × PoolState :=
  let size : Int := src.length
  let jobs := clampJobs jobs size
  let final := runPool cf cont link (initState src dest jobs.toNat) sched
  (dispatchLoop final.chan jobs [], final)

/-- The external collaborators of part_000, as oracles: `cp.AbsolutePath`,
`os.Lstat` (reduced to its `IsDir` answer), `cp.CopyFile` (`none` =
success), and the visit sequence of `filepath.Walk`. -/
structure FSModel where
  abs : GoStr → Except GoStr GoStr
  lstat : GoStr → Except GoStr Bool
  copyFile : GoStr → GoStr → Bool → Option GoStr
  walk : GoStr → List WalkEntry

/-- What a `parallelCopy` invocation did: the direct `cp.CopyFile` calls it
made itself, the `filepath.Walk` invocations, and the `jobDispatcher` call
(its two path lists and the error list the dispatcher's aggregation loop
produced - `none` inside when that loop blocks). -/
structure Trace where
  copyCalls : List (GoStr × GoStr × Bool)
  walkCalls : List GoStr
  dispatch : Option (List GoStr × List GoStr × Option (List GoStr))
deriving DecidableEq, Repr

/-- Go: `parallelCopy` (part_000 lines 64-148).  Mirrors the source's
control flow; the returned trace records the effects.  Note line 146: the
`[]error` list `jobDispatcher` returns is dropped, and line 147 returns
nil - the model keeps the dropped list in the trace but, like the source,
not in the function's result. -/
def parallelCopy (fs : FSModel) (src dest : GoStr)
    (hardlink recurse _useful cont verbose : Bool) (jobs : Int) (sched : List Nat) :
    Except GoStr Unit × Trace :=
  match fs.abs src with
  | .error e => (.error e, ⟨[], [], none⟩)
  | .ok srcAbs =>
    match fs.lstat srcAbs with
    | .error e => (.error e, ⟨[], [], none⟩)
    | .ok srcIsDir =>
      if !srcIsDir then
        (match fs.copyFile src dest hardlink with
         | none => .ok ()
         | some e => .error e,
         ⟨[(src, dest, hardlink)], [], none⟩)
      else if !recurse then
        (.error ("source is a directory, but you did not provide -recurse".toList),
         ⟨[], [], none⟩)
      else
        match fs.abs dest with
        | .error e => (.error e, ⟨[], [], none⟩)
        | .ok destAbs =>
          match fs.lstat destAbs with
          | .error e => (.error e, ⟨[], [], none⟩)
          | .ok destIsDir =>
            if !destIsDir then
              (.error ("source is a directory but destination is not".toList),
               ⟨[], [], none⟩)
            else
              -- line 100: filepath.Walk(srcAbs, countFiles(&count))
              let count := countFiles (fs.walk srcAbs)
              -- lines 105-108: srcFiles := make(stack.Stack, 0, count); walk again
              let srcFiles := (recurseFileTree (fs.walk srcAbs) []).getD []
              -- lines 106, 114: destFiles := make(stack.Stack, count) - `count`
              -- zero values - then copy(destFiles, srcFiles) overwrites
              -- min(count, len(srcFiles)) of them
              let destFiles : stack.Stack :=
                srcFiles.take count ++ List.replicate (count - srcFiles.length) []
              -- lines 119-138: strip the source root, glue on the destination root
              let destFiles := mapDestPaths srcAbs destAbs destFiles
              -- line 146: the dispatch result is not bound; line 147: return nil
              let dres := jobDispatcher srcFiles destFiles hardlink cont verbose jobs
                fs.copyFile sched
              (.ok (), ⟨[], [srcAbs, srcAbs], some (srcFiles, destFiles, dres.1)⟩)

/-! ### Invariants of the worker-pool semantics -/

/-- The pair a worker holds between its claim and its copy's outcome. -/
def statusPair : WStatus → Option (GoStr × GoStr)
  | WStatus.copying src dest => some (src, dest)
  | _ => none

/-- The pairs currently claimed but not yet resolved: one per worker that
stands between its claim and its copy's outcome. -/
def inFlight (ws : List WStatus) : Multiset (GoStr × GoStr) :=
  ↑(ws.filterMap statusPair)

/-- The (source, dest) pairs of the failure messages on the channel. -/
def failedPairs (chan : List copyError) : Multiset (GoStr × GoStr) :=
  ↑((chan.filter (fun e => e.err.isSome)).map (fun e => (e.src, e.dest)))

/-- How many completion messages (nil error) the channel holds. -/
def countCompleted (chan : List copyError) : Nat :=
  (chan.filter (fun e => e.err.isNone)).length

/-- The channel's messages sent by worker `i`, in send order. -/
def wEvents (i : Nat) (chan : List copyError) : List copyError :=
  chan.filter (fun e => e.id == i)

/-- The job queue only shrinks from its tail: it is always `some` prefix of
the two original lists with the claimed trace holding exactly the removed
tail pairs (newest claim last), or `none` after a pop found it empty, at
which point every pair has been claimed. -/
def stackInv (src dest : List GoStr) (s : PoolState) : Prop :=
  (∃ k, k ≤ src.length ∧
      s.jobs.src = some (src.take k) ∧ s.jobs.dest = some (dest.take k) ∧
      s.claimed.map Prod.snd = ((src.zip dest).drop k).reverse) ∨
  (s.jobs.src = none ∧ s.jobs.dest = none ∧
      s.claimed.map Prod.snd = (src.zip dest).reverse)

/-- Every claimed pair is accounted for exactly once: copied, reported
failed, or in flight; copies succeeded under `cf` and failure messages
carry `cf`'s error for their pair; message ids name spawned workers. -/
def acctInv (cf : GoStr → GoStr → Bool → Option GoStr) (link : Bool) (s : PoolState) : Prop :=
  ((↑(s.claimed.map Prod.snd) : Multiset (GoStr × GoStr)) =
      ↑s.copies + failedPairs s.chan + inFlight s.workers) ∧
  (∀ p ∈ s.copies, cf p.1 p.2 link = none) ∧
  (∀ e ∈ s.chan, (e.err = none → e.src = [] ∧ e.dest = []) ∧
      ∀ er, e.err = some er → cf e.src e.dest link = some er) ∧
  (∀ e ∈ s.chan, e.id < s.workers.length)

/-- The completion message worker `i` contributes once it has returned. -/
def doneSuffix (i : Nat) (w : Option WStatus) : List copyError :=
  match w with
  | some WStatus.done => [completedEv i]
  | _ => []

/-- Under continue-on-error, worker `i`'s messages are failure messages
followed by its single completion message exactly when it has returned. -/
def chanInv (s : PoolState) : Prop :=
  ∀ i : Nat, ∃ fs, wEvents i s.chan = fs ++ doneSuffix i s.workers[i]? ∧
    ∀ e ∈ fs, e.err.isSome = true

/-- Under continue-on-error a worker only returns after a pop found the
queue empty, which leaves the source stack pointer nil for good. -/
def doneInv (s : PoolState) : Prop :=
  (∃ i : Nat, s.workers[i]? = some WStatus.done) → s.jobs.src = none

/-! ### Concrete scenario data -/

/-- Scenario of §8: the five enumerated source files. -/
def srcC2 : List GoStr :=
  ["/a/1".toList, "/a/2".toList, "/a/3".toList, "/a/4".toList, "/a/5".toList]

/-- The five mapped destination files. -/
def destC2 : List GoStr :=
  ["/b/1".toList, "/b/2".toList, "/b/3".toList, "/b/4".toList, "/b/5".toList]

/-- The one unreadable source file. -/
def badC2 : GoStr := "/a/3".toList

/-- The error `cp.CopyFile` reports for the unreadable file. -/
def errC2 : GoStr := "/a/3: unreadable".toList

/-- The `cp.CopyFile` oracle: copying the unreadable file fails, every
other copy succeeds. -/
def cfC2 : GoStr → GoStr → Bool → Option GoStr :=
  fun src _ _ => if src == badC2 then some errC2 else none

/-- Schedule of scenario 5 (`jobs=1`, `continueOnError=false`): the lone
worker alternates claim and copy - it pops `/a/5` and `/a/4` (copies
succeed), then pops `/a/3`, whose copy fails, and returns. -/
def schedC2 : List Nat := [0, 0, 0, 0, 0, 0]

/-- Schedule of scenario 4 (`jobs=3`, `continueOnError=true`) driving every
worker to its return: worker 0 drains all five jobs (continuing past the
failure) and finds the queue empty; workers 1 and 2 then each find the
queue empty. -/
def schedC3 : List Nat := [0, 0, 0, 0, 0, 0, 0, 0, 0, 0, 0, 1, 2]

/-- The four copies scenario 4 expects, in pop (LIFO) order. -/
def goodC3 : List (GoStr × GoStr) :=
  [("/a/5".toList, "/b/5".toList), ("/a/4".toList, "/b/4".toList),
   ("/a/2".toList, "/b/2".toList), ("/a/1".toList, "/b/1".toList)]

/-- The source root of the one-file tree behind the discarded-result run. -/
def rootC1 : GoStr := "/a".toList

/-- Its destination root. -/
def destRootC1 : GoStr := "/b".toList

/-- The one file of that tree. -/
def fileC1 : GoStr := "/a/x".toList

/-- The error its copy reports. -/
def errC1 : GoStr := "/a/x: permission denied".toList

/-- The oracle of the discarded-result run: both roots resolve to
directories, the tree holds one file, and every copy fails. -/
def fsC1 : FSModel :=
  { abs := fun p => .ok p,
    lstat := fun p => .ok (p == rootC1 || p == destRootC1),
    copyFile := fun _ _ _ => some errC1,
    walk := fun p => if p == rootC1 then [⟨rootC1, true⟩, ⟨fileC1, false⟩] else [] }

/-- Schedule of the discarded-result run: the lone worker claims the file,
fails its copy, continues, and finds the queue empty. -/
def schedC1 : List Nat := [0, 0, 0, 0]

/-! ### Basic lemmas about the stack and the enumeration -/

theorem stack.Pop_concat (xs : List GoStr) (x : GoStr) :
    stack.Pop (some (xs ++ [x])) = (x, some xs) := by
  rcases xs with _ | ⟨a, as⟩
  · rfl
  · show stack.Pop (some (a :: (as ++ [x]))) = _
    simp only [stack.Pop, ← List.cons_append, List.getLast_concat, List.dropLast_concat]

theorem visitDirectory_some (entries : List WalkEntry) (acc : stack.Stack) :
    visitDirectory entries (some acc) =
      some (acc ++ (entries.filter (fun e => !e.isDir)).map WalkEntry.path) := by
  induction entries generalizing acc with
  | nil => simp [visitDirectory]
  | cons e es ih =>
    cases h : e.isDir with
    | true =>
      have hstep : visitDirectory (e :: es) (some acc) = visitDirectory es (some acc) := by
        simp [visitDirectory, List.foldl_cons, h]
      rw [hstep, ih, List.filter_cons, h]
      simp
    | false =>
      have hstep : visitDirectory (e :: es) (some acc) =
          visitDirectory es (some (acc ++ [e.path])) := by
        simp [visitDirectory, List.foldl_cons, h, stack.Push]
      rw [hstep, ih, List.filter_cons, h]
      simp

theorem countFiles_foldl (entries : List WalkEntry) (n : Nat) :
    entries.foldl (fun count e => if e.isDir then count else count + 1) n =
      n + (entries.filter (fun e => !e.isDir)).length := by
  induction entries generalizing n with
  | nil => simp
  | cons e es ih =>
    cases h : e.isDir with
    | true => simp [List.foldl_cons, h, ih, List.filter_cons]
    | false =>
      simp [List.foldl_cons, h, ih, List.filter_cons]
      omega

/-- C9: the enumeration walks the tree once and emits exactly the
non-directory entries, in traversal order: the file list equals the walk's
visit sequence restricted to non-directories, the counter of `countFiles`
equals that list's length, and every emitted path is a non-directory entry
of the walk. -/
theorem C9_enumeration (entries : List WalkEntry) :
    recurseFileTree entries [] =
      some ((entries.filter (fun e => !e.isDir)).map WalkEntry.path) ∧
    countFiles entries = ((entries.filter (fun e => !e.isDir)).map WalkEntry.path).length ∧
    ∀ p ∈ (entries.filter (fun e => !e.isDir)).map WalkEntry.path,
      ∃ e ∈ entries, e.path = p ∧ e.isDir = false := by
  refine ⟨?_, ?_, ?_⟩
  · rw [recurseFileTree, visitDirectory_some]
    simp
  · rw [countFiles, countFiles_foldl]
    simp
  · intro p hp
    simp only [List.mem_map, List.mem_filter] at hp
    obtain ⟨e, ⟨he, hdir⟩, rfl⟩ := hp
    exact ⟨e, he, rfl, by simpa using hdir⟩

/-- C6: the locked claim of `copyRoutine` on two equal-length stacks: on the
empty queue both pops return the sentinel `("", nil)`, whose nil stack
pointer is distinct from every valid claim (those leave a non-nil pointer);
otherwise it removes and returns exactly the last element of each of the
two parallel lists, keeping their lengths equal. -/
theorem C6_claim_lifo (ls ld : List GoStr) (h : ls.length = ld.length) :
    (ls = [] → ld = [] ∧ claim ⟨some ls, some ld⟩ = (([], []), ⟨none, none⟩)) ∧
    (∀ xs x, ls = xs ++ [x] → ∃ ys y, ld = ys ++ [y] ∧
      claim ⟨some ls, some ld⟩ = ((x, y), ⟨some xs, some ys⟩) ∧
      xs.length = ys.length ∧
      (claim ⟨some ls, some ld⟩).2.src ≠ none) := by
  constructor
  · rintro rfl
    have : ld = [] := by simpa using h.symm
    subst this
    exact ⟨rfl, rfl⟩
  · rintro xs x rfl
    have hld : ld ≠ [] := by
      intro hld
      subst hld
      simp at h
    obtain ⟨ys, y, hld2⟩ := (List.eq_nil_or_concat ld).resolve_left hld
    rw [List.concat_eq_append] at hld2
    subst hld2
    refine ⟨ys, y, rfl, ?_, ?_, ?_⟩
    · simp [claim, stack.Pop_concat]
    · simp only [List.length_append, List.length_cons, List.length_nil] at h
      omega
    · simp [claim, stack.Pop_concat]

/-! ### Path-mapper lemmas -/

theorem isPrefixOf_append_self (p t : GoStr) : p.isPrefixOf (p ++ t) = true := by
  induction p with
  | nil => simp [List.isPrefixOf]
  | cons a as ih => simp [List.isPrefixOf, ih]

theorem hasSuffix_concat_self (r : GoStr) (c : Char) :
    strings.HasSuffix (r ++ [c]) [c] = true := by
  simp [strings.HasSuffix, List.isSuffixOf, List.reverse_append, List.isPrefixOf]

theorem TrimPrefix_append (p t : GoStr) : strings.TrimPrefix (p ++ t) p = t := by
  simp [strings.TrimPrefix, strings.HasPrefix, isPrefixOf_append_self, List.drop_left]

theorem Join_pair (a b : GoStr) : strings.Join [a, b] [] = a ++ b := by
  simp [strings.Join, List.intercalate, List.intersperse]

theorem normRoot_eq (R : GoStr) (b : Bool) (hR : strings.HasSuffix R ['/'] = false) :
    (if !(strings.HasSuffix (R ++ if b then ['/'] else []) ['/'])
      then strings.Join [R ++ (if b then ['/'] else []), ['/']] []
      else R ++ (if b then ['/'] else [])) = R ++ ['/'] := by
  cases b
  · simp [hR, Join_pair]
  · simp [hasSuffix_concat_self]

/-- C5: the path mapper of `parallelCopy`: for a source list enumerated
under root `Rs` (every entry is `Rs ++ "/" ++ suffix`), the destination
list has equal length and entry `i` is the normalized destination root
followed by exactly the relative suffix of source entry `i`, whether or
not either root was supplied with a trailing separator. -/
theorem C5_path_mapper (Rs Rd : GoStr) (suffixes : List GoStr) (bs bd : Bool)
    (hRs : strings.HasSuffix Rs ['/'] = false)
    (hRd : strings.HasSuffix Rd ['/'] = false) :
    mapDestPaths (Rs ++ if bs then ['/'] else []) (Rd ++ if bd then ['/'] else [])
        (suffixes.map (fun suffix => (Rs ++ ['/']) ++ suffix)) =
      suffixes.map (fun suffix => (Rd ++ ['/']) ++ suffix) ∧
    (mapDestPaths (Rs ++ if bs then ['/'] else []) (Rd ++ if bd then ['/'] else [])
        (suffixes.map (fun suffix => (Rs ++ ['/']) ++ suffix))).length =
      (suffixes.map (fun suffix => (Rs ++ ['/']) ++ suffix)).length := by
  have h1 : stripSrcRoot (Rs ++ if bs then ['/'] else [])
      (suffixes.map (fun suffix => (Rs ++ ['/']) ++ suffix)) = suffixes := by
    rw [stripSrcRoot]
    rw [normRoot_eq Rs bs hRs, List.map_map]
    have : ∀ suffix ∈ suffixes,
        ((fun file => strings.TrimPrefix file (Rs ++ ['/'])) ∘
          fun suffix => Rs ++ ['/'] ++ suffix) suffix = id suffix := by
      intro suffix _
      show strings.TrimPrefix (Rs ++ ['/'] ++ suffix) (Rs ++ ['/']) = suffix
      exact TrimPrefix_append (Rs ++ ['/']) suffix
    rw [List.map_congr_left this, List.map_id]
  have h2 : addDestRoot (Rd ++ if bd then ['/'] else []) suffixes =
      suffixes.map (fun suffix => (Rd ++ ['/']) ++ suffix) := by
    rw [addDestRoot]
    rw [normRoot_eq Rd bd hRd]
    refine List.map_congr_left ?_
    intro suffix _
    exact Join_pair (Rd ++ ['/']) suffix
  constructor
  · rw [mapDestPaths, h1, h2]
  · rw [mapDestPaths, h1, h2]
    simp

/-! ### Single-file and setup-error paths of parallelCopy -/

/-- C7: when the source resolves to a non-directory, `parallelCopy` makes
exactly one direct `cp.CopyFile` call, on the original (source, dest) pair
with the hardlink flag, and returns its result; the trace shows no walk
and no dispatch - no path lists are built, no job queue is created and no
worker is spawned. -/
theorem C7_single_file (fs : FSModel) (src dest : GoStr)
    (hardlink recurse useful cont verbose : Bool) (jobs : Int) (sched : List Nat)
    (srcAbs : GoStr) (h1 : fs.abs src = .ok srcAbs) (h2 : fs.lstat srcAbs = .ok false) :
    parallelCopy fs src dest hardlink recurse useful cont verbose jobs sched =
      ((match fs.copyFile src dest hardlink with
        | none => Except.ok ()
        | some e => Except.error e), ⟨[(src, dest, hardlink)], [], none⟩) := by
  simp [parallelCopy, h1, h2]

/-- Witness: a concrete non-directory source takes the single-copy path. -/
theorem C7_single_file_witness :
    fsC1.abs fileC1 = Except.ok fileC1 ∧
    fsC1.lstat fileC1 = Except.ok false ∧
    parallelCopy fsC1 fileC1 destRootC1 false false false false false 1 [] =
      (Except.error errC1, ⟨[(fileC1, destRootC1, false)], [], none⟩) :=
  ⟨rfl, rfl, C7_single_file fsC1 fileC1 destRootC1 false false false false false 1 []
    fileC1 rfl rfl⟩

/-- C8: when the source resolves to a directory and the recurse flag is
off, `parallelCopy` fails immediately with the "source is a directory"
error; the trace is empty - no enumeration, no copy, no dispatch, so the
destination is untouched. -/
theorem C8_directory_needs_recurse (fs : FSModel) (src dest : GoStr)
    (hardlink useful cont verbose : Bool) (jobs : Int) (sched : List Nat)
    (srcAbs : GoStr) (h1 : fs.abs src = .ok srcAbs) (h2 : fs.lstat srcAbs = .ok true) :
    parallelCopy fs src dest hardlink false useful cont verbose jobs sched =
      (.error ("source is a directory, but you did not provide -recurse".toList),
       ⟨[], [], none⟩) := by
  simp [parallelCopy, h1, h2]

/-- Witness: a concrete directory source without the recurse flag. -/
theorem C8_directory_needs_recurse_witness :
    fsC1.abs rootC1 = Except.ok rootC1 ∧
    fsC1.lstat rootC1 = Except.ok true ∧
    parallelCopy fsC1 rootC1 destRootC1 false false false false false 1 [] =
      (.error ("source is a directory, but you did not provide -recurse".toList),
       ⟨[], [], none⟩) :=
  ⟨rfl, rfl, C8_directory_needs_recurse fsC1 rootC1 destRootC1 false false false false 1 []
    rootC1 rfl rfl⟩

/-! ### The dispatcher on an empty queue, and the two concrete defect runs -/

theorem workerStep_no_workers (cf : GoStr → GoStr → Bool → Option GoStr)
    (cont link : Bool) (s : PoolState) (i : Nat) (h : s.workers = []) :
    workerStep cf cont link s i = s := by
  simp [workerStep, h]

theorem runPool_no_workers (cf : GoStr → GoStr → Bool → Option GoStr)
    (cont link : Bool) (s : PoolState) (sched : List Nat) (h : s.workers = []) :
    runPool cf cont link s sched = s := by
  induction sched with
  | nil => rfl
  | cons i is ih =>
    show runPool cf cont link (workerStep cf cont link s i) is = s
    rw [workerStep_no_workers cf cont link s i h]
    exact ih

/-- C10: with an empty job list, the requested worker count is clamped to
zero, no worker is spawned, no message is ever sent on the outcome
channel, and the aggregation loop never returns: `jobDispatcher` blocks
forever on an empty queue. -/
theorem C10_empty_queue_blocks (link cont verbose : Bool) (jobs : Int)
    (cf : GoStr → GoStr → Bool → Option GoStr) (sched : List Nat) (hjobs : 1 ≤ jobs) :
    clampJobs jobs 0 = 0 ∧
    (jobDispatcher [] [] link cont verbose jobs cf sched).2.workers = [] ∧
    (jobDispatcher [] [] link cont verbose jobs cf sched).2.chan = [] ∧
    (jobDispatcher [] [] link cont verbose jobs cf sched).1 = none := by
  have hcl : clampJobs jobs 0 = 0 := by
    rw [clampJobs, if_pos (by omega)]
  have hrun : jobDispatcher [] [] link cont verbose jobs cf sched =
      (none, initState [] [] 0) := by
    rw [jobDispatcher]
    simp only [List.length_nil, Nat.cast_zero, hcl, Int.toNat_zero]
    rw [runPool_no_workers cf cont link (initState [] [] 0) sched rfl]
    rfl
  refine ⟨hcl, ?_, ?_, ?_⟩
  all_goals rw [hrun]
  all_goals rfl

/-- Witness: an empty queue with one requested worker. -/
theorem C10_empty_queue_blocks_witness :
    (1 : Int) ≤ 1 ∧
    (clampJobs 1 0 = 0 ∧
     (jobDispatcher [] [] false false false 1 (fun _ _ _ => none) []).2.workers = [] ∧
     (jobDispatcher [] [] false false false 1 (fun _ _ _ => none) []).2.chan = [] ∧
     (jobDispatcher [] [] false false false 1 (fun _ _ _ => none) []).1 = none) :=
  ⟨by decide, C10_empty_queue_blocks false false false 1 (fun _ _ _ => none) [] (by decide)⟩

/-- C1 (the slip at line 146): in the one-file run whose copy fails, the
aggregation loop of `jobDispatcher` returns the one-element error list -
the trace records it - but `parallelCopy` drops that list and returns nil:
the caller of the copy operation sees success. -/
theorem C1_dispatch_result_discarded :
    (parallelCopy fsC1 rootC1 destRootC1 false true false true false 1 schedC1).2.dispatch =
      some ([fileC1], ["/b/x".toList], some [errC1]) ∧
    (parallelCopy fsC1 rootC1 destRootC1 false true false true false 1 schedC1).1 =
      Except.ok () :=
  ⟨rfl, rfl⟩

/-- C2 (the hang of §9): scenario 5 run concretely - `jobs=1`,
`continueOnError=false`, five queued files of which the third pop
(`/a/3`) fails.  Only the two files claimed before the failure are copied,
the single error is reported on the channel, the worker returns without a
completion message, and the aggregation loop of `jobDispatcher`, counting
only completion messages, never returns. -/
theorem C2_aggregation_never_returns :
    (jobDispatcher srcC2 destC2 false false false 1 cfC2 schedC2).2.copies =
      [("/a/5".toList, "/b/5".toList), ("/a/4".toList, "/b/4".toList)] ∧
    (jobDispatcher srcC2 destC2 false false false 1 cfC2 schedC2).2.chan =
      [⟨0, badC2, "/b/3".toList, some errC2⟩] ∧
    (jobDispatcher srcC2 destC2 false false false 1 cfC2 schedC2).2.workers =
      [WStatus.done] ∧
    (jobDispatcher srcC2 destC2 false false false 1 cfC2 schedC2).1 = none :=
  ⟨rfl, rfl, rfl, rfl⟩

/-- Witness: the mapper on root `/a`, destination root `/b/` (supplied with
its trailing separator) and the one relative suffix `x`. -/
theorem C5_path_mapper_witness :
    strings.HasSuffix ['/', 'a'] ['/'] = false ∧
    strings.HasSuffix ['/', 'b'] ['/'] = false ∧
    (mapDestPaths (['/', 'a'] ++ if false then ['/'] else [])
        (['/', 'b'] ++ if true then ['/'] else [])
        ([['x']].map (fun suffix => (['/', 'a'] ++ ['/']) ++ suffix)) =
      [['x']].map (fun suffix => (['/', 'b'] ++ ['/']) ++ suffix) ∧
     (mapDestPaths (['/', 'a'] ++ if false then ['/'] else [])
        (['/', 'b'] ++ if true then ['/'] else [])
        ([['x']].map (fun suffix => (['/', 'a'] ++ ['/']) ++ suffix))).length =
      ([['x']].map (fun suffix => (['/', 'a'] ++ ['/']) ++ suffix)).length) :=
  ⟨by decide, by decide,
    C5_path_mapper ['/', 'a'] ['/', 'b'] [['x']] false true (by decide) (by decide)⟩

/-- Witness: the claim on the concrete two-job queue. -/
theorem C6_claim_lifo_witness :
    ([['x'], ['y']] : List GoStr).length = ([['u'], ['v']] : List GoStr).length ∧
    ((([['x'], ['y']] : List GoStr) = []) → ([['u'], ['v']] : List GoStr) = [] ∧
      claim ⟨some [['x'], ['y']], some [['u'], ['v']]⟩ = (([], []), ⟨none, none⟩)) ∧
    (∀ xs x, ([['x'], ['y']] : List GoStr) = xs ++ [x] →
      ∃ ys y, ([['u'], ['v']] : List GoStr) = ys ++ [y] ∧
        claim ⟨some [['x'], ['y']], some [['u'], ['v']]⟩ = ((x, y), ⟨some xs, some ys⟩) ∧
        xs.length = ys.length ∧
        (claim ⟨some [['x'], ['y']], some [['u'], ['v']]⟩).2.src ≠ none) :=
  ⟨by decide, C6_claim_lifo [['x'], ['y']] [['u'], ['v']] (by decide)⟩

/-! ### Preservation of the pool invariants -/

theorem filterMap_set_congr {α β : Type _} (f : α → Option β) :
    ∀ (l : List α) (i : Nat) (w w' : α), l[i]? = some w → f w' = f w →
      (l.set i w').filterMap f = l.filterMap f
  | [], i, w, w', hl, _ => by simp at hl
  | a :: as, 0, w, w', hl, hww' => by
    obtain rfl : a = w := by simpa using hl
    simp [List.filterMap_cons, hww']
  | a :: as, n + 1, w, w', hl, hww' => by
    have ih := filterMap_set_congr f as n w w' (by simpa using hl) hww'
    simp [List.filterMap_cons, ih]

theorem filterMap_set_add {α β : Type _} (f : α → Option β) :
    ∀ (l : List α) (i : Nat) (w w' : α) (b : β),
      l[i]? = some w → f w = none → f w' = some b →
      (↑((l.set i w').filterMap f) : Multiset β) = ↑(l.filterMap f) + {b}
  | [], i, w, w', b, hl, _, _ => by simp at hl
  | a :: as, 0, w, w', b, hl, hw, hw' => by
    obtain rfl : a = w := by simpa using hl
    simp only [List.set_cons_zero, List.filterMap_cons, hw, hw']
    rw [← Multiset.cons_coe, ← Multiset.singleton_add, add_comm]
  | a :: as, n + 1, w, w', b, hl, hw, hw' => by
    have ih := filterMap_set_add f as n w w' b (by simpa using hl) hw hw'
    cases ha : f a with
    | none => simpa [List.filterMap_cons, ha] using ih
    | some c =>
      simp only [List.set_cons_succ, List.filterMap_cons, ha]
      rw [← Multiset.cons_coe, ← Multiset.cons_coe, ih, Multiset.cons_add]

theorem filterMap_set_sub {α β : Type _} (f : α → Option β) :
    ∀ (l : List α) (i : Nat) (w w' : α) (b : β),
      l[i]? = some w → f w = some b → f w' = none →
      (↑(l.filterMap f) : Multiset β) = ↑((l.set i w').filterMap f) + {b}
  | [], i, w, w', b, hl, _, _ => by simp at hl
  | a :: as, 0, w, w', b, hl, hw, hw' => by
    obtain rfl : a = w := by simpa using hl
    simp only [List.set_cons_zero, List.filterMap_cons, hw, hw']
    rw [← Multiset.cons_coe, ← Multiset.singleton_add, add_comm]
  | a :: as, n + 1, w, w', b, hl, hw, hw' => by
    have ih := filterMap_set_sub f as n w w' b (by simpa using hl) hw hw'
    cases ha : f a with
    | none => simpa [List.filterMap_cons, ha] using ih
    | some c =>
      simp only [List.set_cons_succ, List.filterMap_cons, ha]
      rw [← Multiset.cons_coe, ← Multiset.cons_coe, ih, Multiset.cons_add]

theorem stackInv_step (src dest : List GoStr) (hlen : src.length = dest.length)
    (cf : GoStr → GoStr → Bool → Option GoStr) (cont link : Bool)
    (s : PoolState) (i : Nat) (h : stackInv src dest s) :
    stackInv src dest (workerStep cf cont link s i) := by
  rcases hw : s.workers[i]? with _ | w
  · simpa [workerStep, hw] using h
  rcases w with _ | ⟨ps, pd⟩ | _
  · -- a ready worker performs the locked claim
    rcases h with ⟨k, hk, hsrc, hdest, hcl⟩ | ⟨hsrc, hdest, hcl⟩
    · by_cases hk0 : k = 0
      · subst hk0
        have hclaim : claim s.jobs = (([], []), ⟨none, none⟩) := by
          rw [claim, hsrc, hdest]
          rfl
        simp only [workerStep, hw, hclaim]
        rw [if_pos trivial]
        right
        exact ⟨rfl, rfl, by simpa using hcl⟩
      · have hk1 : 1 ≤ k := Nat.one_le_iff_ne_zero.2 hk0
        have hkd : k ≤ dest.length := hlen ▸ hk
        have hsrc' : src.take k = src.take (k - 1) ++ [src[k - 1]] := by
          conv_lhs => rw [show k = (k - 1) + 1 by omega]
          rw [List.take_succ, List.getElem?_eq_getElem (by omega)]
          rfl
        have hdest' : dest.take k = dest.take (k - 1) ++ [dest[k - 1]] := by
          conv_lhs => rw [show k = (k - 1) + 1 by omega]
          rw [List.take_succ, List.getElem?_eq_getElem (by omega)]
          rfl
        have hclaim : claim s.jobs =
            ((src[k - 1], dest[k - 1]),
             ⟨some (src.take (k - 1)), some (dest.take (k - 1))⟩) := by
          rw [claim, hsrc, hdest, hsrc', hdest', stack.Pop_concat, stack.Pop_concat]
        simp only [workerStep, hw, hclaim]
        rw [if_neg (by simp)]
        left
        refine ⟨k - 1, by omega, rfl, rfl, ?_⟩
        have hzlen : k - 1 < (src.zip dest).length := by
          rw [List.length_zip]
          omega
        have hdrop : (src.zip dest).drop (k - 1) =
            (src[k - 1], dest[k - 1]) :: (src.zip dest).drop k := by
          rw [List.drop_eq_getElem_cons hzlen, List.getElem_zip]
          congr 2
          omega
        show (s.claimed ++ [(i, (src[k - 1], dest[k - 1]))]).map Prod.snd = _
        rw [List.map_append, hcl, hdrop, List.reverse_cons]
        rfl
    · have hclaim : claim s.jobs = (([], []), ⟨none, none⟩) := by
        rw [claim, hsrc, hdest]
        rfl
      simp only [workerStep, hw, hclaim]
      rw [if_pos trivial]
      right
      exact ⟨rfl, rfl, hcl⟩
  · -- a copying worker leaves the queue and the claimed trace alone
    have hsame : (workerStep cf cont link s i).jobs = s.jobs ∧
        (workerStep cf cont link s i).claimed = s.claimed := by
      simp only [workerStep, hw]
      cases cf ps pd link <;> exact ⟨rfl, rfl⟩
    rw [stackInv, hsame.1, hsame.2]
    exact h
  · simpa [workerStep, hw] using h

theorem failedPairs_append (l₁ l₂ : List copyError) :
    failedPairs (l₁ ++ l₂) = failedPairs l₁ + failedPairs l₂ := by
  simp [failedPairs, List.filter_append, List.map_append, ← Multiset.coe_add]

theorem acctInv_step (cf : GoStr → GoStr → Bool → Option GoStr) (cont link : Bool)
    (s : PoolState) (i : Nat) (h : acctInv cf link s) :
    acctInv cf link (workerStep cf cont link s i) := by
  rcases hw : s.workers[i]? with _ | w
  · simpa [workerStep, hw] using h
  obtain ⟨hlt, _⟩ := List.getElem?_eq_some.1 hw
  obtain ⟨hbal, hcop, hchan, hid⟩ := h
  rcases w with _ | ⟨ps, pd⟩ | _
  · -- ready: the locked claim
    simp only [workerStep, hw]
    by_cases hc : (claim s.jobs).2.src = none
    · rw [if_pos hc]
      simp only [acctInv]
      refine ⟨?_, hcop, ?_, ?_⟩
      · rw [failedPairs_append]
        have h0 : failedPairs [completedEv i] = 0 := rfl
        rw [h0, add_zero, inFlight,
          filterMap_set_congr statusPair s.workers i WStatus.ready WStatus.done hw rfl]
        exact hbal
      · intro e he
        rcases List.mem_append.1 he with he | he
        · exact hchan e he
        · rw [List.mem_singleton] at he
          subst he
          exact ⟨fun _ => ⟨rfl, rfl⟩, fun er her => by simp [completedEv] at her⟩
      · intro e he
        rw [List.length_set]
        rcases List.mem_append.1 he with he | he
        · exact hid e he
        · rw [List.mem_singleton] at he
          subst he
          exact hlt
    · rw [if_neg hc]
      simp only [acctInv]
      refine ⟨?_, hcop, hchan, ?_⟩
      · rw [List.map_append, ← Multiset.coe_add]
        have hset : inFlight (s.workers.set i
            (WStatus.copying (claim s.jobs).1.1 (claim s.jobs).1.2)) =
            inFlight s.workers + {(claim s.jobs).1} :=
          filterMap_set_add statusPair s.workers i WStatus.ready
            (WStatus.copying (claim s.jobs).1.1 (claim s.jobs).1.2) (claim s.jobs).1 hw rfl rfl
        rw [hset, hbal]
        show (↑(s.copies) + failedPairs s.chan + inFlight s.workers) + ↑[(claim s.jobs).1] =
          ↑s.copies + failedPairs s.chan + (inFlight s.workers + {(claim s.jobs).1})
        rw [Multiset.coe_singleton, add_assoc]
      · intro e he
        rw [List.length_set]
        exact hid e he
  · -- copying: cp.CopyFile resolves the held pair
    simp only [workerStep, hw]
    cases hcf : cf ps pd link with
    | none =>
      simp only [acctInv]
      refine ⟨?_, ?_, hchan, ?_⟩
      · have hset : inFlight s.workers =
            inFlight (s.workers.set i WStatus.ready) + {(ps, pd)} :=
          filterMap_set_sub statusPair s.workers i (WStatus.copying ps pd)
            WStatus.ready (ps, pd) hw rfl rfl
        rw [hbal, hset, ← Multiset.coe_add]
        show ↑s.copies + failedPairs s.chan +
            (inFlight (s.workers.set i WStatus.ready) + {(ps, pd)}) =
          ↑(s.copies ++ [(ps, pd)]) + failedPairs s.chan +
            inFlight (s.workers.set i WStatus.ready)
        rw [← Multiset.coe_add, Multiset.coe_singleton]
        have : (↑s.copies + {(ps, pd)} : Multiset (GoStr × GoStr)) =
            ↑s.copies + {(ps, pd)} := rfl
        abel
      · intro p hp
        rcases List.mem_append.1 hp with hp | hp
        · exact hcop p hp
        · rw [List.mem_singleton] at hp
          subst hp
          exact hcf
      · intro e he
        rw [List.length_set]
        exact hid e he
    | some er =>
      simp only [acctInv]
      refine ⟨?_, hcop, ?_, ?_⟩
      · have hpair : statusPair (if cont then WStatus.ready else WStatus.done) = none := by
          cases cont <;> rfl
        have hset : inFlight s.workers =
            inFlight (s.workers.set i (if cont then WStatus.ready else WStatus.done)) +
              {(ps, pd)} :=
          filterMap_set_sub statusPair s.workers i (WStatus.copying ps pd)
            (if cont then WStatus.ready else WStatus.done) (ps, pd) hw rfl hpair
        rw [hbal, hset, failedPairs_append]
        have hfp : failedPairs [⟨i, ps, pd, some er⟩] = {(ps, pd)} := rfl
        rw [hfp]
        abel
      · intro e he
        rcases List.mem_append.1 he with he | he
        · exact hchan e he
        · rw [List.mem_singleton] at he
          subst he
          refine ⟨fun hne => by simp at hne, fun er' her' => ?_⟩
          obtain rfl : er = er' := by simpa using her'
          exact hcf
      · intro e he
        rw [List.length_set]
        rcases List.mem_append.1 he with he | he
        · exact hid e he
        · rw [List.mem_singleton] at he
          subst he
          exact hlt
  · simpa [workerStep, hw] using ⟨hbal, hcop, hchan, hid⟩

theorem wEvents_append (i : Nat) (l₁ l₂ : List copyError) :
    wEvents i (l₁ ++ l₂) = wEvents i l₁ ++ wEvents i l₂ := by
  simp [wEvents, List.filter_append]

theorem chanInv_step (cf : GoStr → GoStr → Bool → Option GoStr) (link : Bool)
    (s : PoolState) (i : Nat) (h : chanInv s) :
    chanInv (workerStep cf true link s i) := by
  rcases hw : s.workers[i]? with _ | w
  · simpa [workerStep, hw] using h
  have hlt : i < s.workers.length := (List.getElem?_eq_some.1 hw).1
  rcases w with _ | ⟨ps, pd⟩ | _
  · simp only [workerStep, hw]
    by_cases hc : (claim s.jobs).2.src = none
    · rw [if_pos hc]
      intro j
      obtain ⟨fs, hfs, hall⟩ := h j
      by_cases hij : i = j
      · subst hij
        rw [hw] at hfs
        have hfs' : wEvents i s.chan = fs := by simpa [doneSuffix] using hfs
        refine ⟨fs, ?_, hall⟩
        show wEvents i (s.chan ++ [completedEv i]) =
          fs ++ doneSuffix i (s.workers.set i WStatus.done)[i]?
        rw [wEvents_append, hfs', List.getElem?_set_eq_of_lt WStatus.done hlt]
        have h1 : wEvents i [completedEv i] = [completedEv i] := by
          simp [wEvents, completedEv]
        rw [h1]
        rfl
      · refine ⟨fs, ?_, hall⟩
        show wEvents j (s.chan ++ [completedEv i]) =
          fs ++ doneSuffix j (s.workers.set i WStatus.done)[j]?
        have h1 : wEvents j [completedEv i] = [] := by
          simp [wEvents, completedEv, hij]
        rw [wEvents_append, h1, List.append_nil, List.getElem?_set_ne hij]
        exact hfs
    · rw [if_neg hc]
      intro j
      obtain ⟨fs, hfs, hall⟩ := h j
      by_cases hij : i = j
      · subst hij
        rw [hw] at hfs
        refine ⟨fs, ?_, hall⟩
        show wEvents i s.chan =
          fs ++ doneSuffix i (s.workers.set i
            (WStatus.copying (claim s.jobs).1.1 (claim s.jobs).1.2))[i]?
        rw [List.getElem?_set_eq_of_lt _ hlt]
        exact hfs
      · refine ⟨fs, ?_, hall⟩
        show wEvents j s.chan =
          fs ++ doneSuffix j (s.workers.set i
            (WStatus.copying (claim s.jobs).1.1 (claim s.jobs).1.2))[j]?
        rw [List.getElem?_set_ne hij]
        exact hfs
  · cases hcf : cf ps pd link with
    | none =>
      simp only [workerStep, hw, hcf]
      intro j
      obtain ⟨fs, hfs, hall⟩ := h j
      by_cases hij : i = j
      · subst hij
        rw [hw] at hfs
        refine ⟨fs, ?_, hall⟩
        show wEvents i s.chan = fs ++ doneSuffix i (s.workers.set i WStatus.ready)[i]?
        rw [List.getElem?_set_eq_of_lt WStatus.ready hlt]
        exact hfs
      · refine ⟨fs, ?_, hall⟩
        show wEvents j s.chan = fs ++ doneSuffix j (s.workers.set i WStatus.ready)[j]?
        rw [List.getElem?_set_ne hij]
        exact hfs
    | some er =>
      simp only [workerStep, hw, hcf]
      rw [if_pos trivial]
      intro j
      obtain ⟨fs, hfs, hall⟩ := h j
      by_cases hij : i = j
      · subst hij
        rw [hw] at hfs
        have hfs' : wEvents i s.chan = fs := by simpa [doneSuffix] using hfs
        refine ⟨fs ++ [⟨i, ps, pd, some er⟩], ?_, ?_⟩
        · show wEvents i (s.chan ++ [⟨i, ps, pd, some er⟩]) =
            (fs ++ [⟨i, ps, pd, some er⟩]) ++
              doneSuffix i (s.workers.set i WStatus.ready)[i]?
          have h1 : wEvents i [⟨i, ps, pd, some er⟩] = [⟨i, ps, pd, some er⟩] := by
            simp [wEvents]
          rw [wEvents_append, hfs', h1, List.getElem?_set_eq_of_lt WStatus.ready hlt]
          simp [doneSuffix]
        · intro e he
          rcases List.mem_append.1 he with he | he
          · exact hall e he
          · rw [List.mem_singleton] at he
            subst he
            rfl
      · refine ⟨fs, ?_, hall⟩
        show wEvents j (s.chan ++ [⟨i, ps, pd, some er⟩]) =
          fs ++ doneSuffix j (s.workers.set i WStatus.ready)[j]?
        have h1 : wEvents j [⟨i, ps, pd, some er⟩] = [] := by
          simp [wEvents, hij]
        rw [wEvents_append, h1, List.append_nil, List.getElem?_set_ne hij]
        exact hfs
  · simpa [workerStep, hw] using h

theorem doneInv_step (cf : GoStr → GoStr → Bool → Option GoStr) (link : Bool)
    (s : PoolState) (i : Nat) (h : doneInv s) :
    doneInv (workerStep cf true link s i) := by
  rcases hw : s.workers[i]? with _ | w
  · simpa [workerStep, hw] using h
  have hlt : i < s.workers.length := (List.getElem?_eq_some.1 hw).1
  rcases w with _ | ⟨ps, pd⟩ | _
  · simp only [workerStep, hw]
    by_cases hc : (claim s.jobs).2.src = none
    · rw [if_pos hc]
      intro _
      exact hc
    · rw [if_neg hc]
      rintro ⟨j, hj⟩
      by_cases hij : i = j
      · subst hij
        rw [List.getElem?_set_eq_of_lt _ hlt] at hj
        cases hj
      · rw [List.getElem?_set_ne hij] at hj
        have hsrc : s.jobs.src = none := h ⟨j, hj⟩
        exact absurd (by rw [claim, hsrc]; rfl) hc
  · cases hcf : cf ps pd link with
    | none =>
      simp only [workerStep, hw, hcf]
      rintro ⟨j, hj⟩
      by_cases hij : i = j
      · subst hij
        rw [List.getElem?_set_eq_of_lt _ hlt] at hj
        cases hj
      · rw [List.getElem?_set_ne hij] at hj
        exact h ⟨j, hj⟩
    | some er =>
      simp only [workerStep, hw, hcf]
      rw [if_pos trivial]
      rintro ⟨j, hj⟩
      by_cases hij : i = j
      · subst hij
        rw [List.getElem?_set_eq_of_lt _ hlt] at hj
        cases hj
      · rw [List.getElem?_set_ne hij] at hj
        exact h ⟨j, hj⟩
  · simpa [workerStep, hw] using h

theorem lenInv_step (cf : GoStr → GoStr → Bool → Option GoStr) (cont link : Bool)
    (s : PoolState) (i : Nat) (W : Nat) (h : s.workers.length = W) :
    (workerStep cf cont link s i).workers.length = W := by
  rcases hw : s.workers[i]? with _ | w
  · simpa [workerStep, hw] using h
  rcases w with _ | ⟨ps, pd⟩ | _
  · simp only [workerStep, hw]
    by_cases hc : (claim s.jobs).2.src = none
    · rw [if_pos hc]
      simpa [List.length_set] using h
    · rw [if_neg hc]
      simpa [List.length_set] using h
  · simp only [workerStep, hw]
    cases cf ps pd link <;> simpa [List.length_set] using h
  · simpa [workerStep, hw] using h

/-- An invariant preserved by every worker step holds after every run. -/
theorem runPool_preserve (cf : GoStr → GoStr → Bool → Option GoStr) (cont link : Bool)
    (P : PoolState → Prop) (hstep : ∀ s i, P s → P (workerStep cf cont link s i)) :
    ∀ (sched : List Nat) (s : PoolState), P s → P (runPool cf cont link s sched)
  | [], _, h => h
  | i :: is, s, h =>
    runPool_preserve cf cont link P hstep is (workerStep cf cont link s i) (hstep s i h)

theorem stackInv_init (src dest : List GoStr) (hlen : src.length = dest.length) (w : Nat) :
    stackInv src dest (initState src dest w) := by
  left
  refine ⟨src.length, le_refl _, ?_, ?_, ?_⟩
  · show some src = some (src.take src.length)
    rw [List.take_length]
  · show some dest = some (dest.take src.length)
    rw [hlen, List.take_length]
  · show List.map Prod.snd [] = ((src.zip dest).drop src.length).reverse
    rw [List.drop_eq_nil_of_le (by rw [List.length_zip]; omega)]
    rfl

/-- C4: for every populated queue of `N` equal-length lists and any worker
count, flags and schedule under which the queue has reported empty, the
ghost trace of successful claims lists exactly the `N` original pairs:
as a list it is the reverse of the zipped originals (LIFO order), so `N`
claims succeeded, the multiset of claimed pairs equals the original
multiset, and every pair was claimed exactly as often as it was pending -
exactly once by exactly one worker when the pairs are distinct. -/
theorem C4_claims_exactly_once (src dest : List GoStr)
    (cf : GoStr → GoStr → Bool → Option GoStr) (cont link : Bool)
    (W : Nat) (sched : List Nat)
    (hlen : src.length = dest.length) (_hN : 1 ≤ src.length) (_hW : W ≤ src.length)
    (hempty : (runPool cf cont link (initState src dest W) sched).jobs.src = none) :
    ((runPool cf cont link (initState src dest W) sched).claimed.map Prod.snd =
      (src.zip dest).reverse) ∧
    (runPool cf cont link (initState src dest W) sched).claimed.length = src.length ∧
    ((↑((runPool cf cont link (initState src dest W) sched).claimed.map Prod.snd) :
      Multiset (GoStr × GoStr)) = ↑(src.zip dest)) ∧
    ∀ p : GoStr × GoStr,
      ((runPool cf cont link (initState src dest W) sched).claimed.map Prod.snd).count p =
        (src.zip dest).count p := by
  have hinv := runPool_preserve cf cont link (stackInv src dest)
    (fun s i h => stackInv_step src dest hlen cf cont link s i h) sched _
    (stackInv_init src dest hlen W)
  rcases hinv with ⟨k, _, hsrc, _, _⟩ | ⟨_, _, hcl⟩
  · rw [hempty] at hsrc
    cases hsrc
  · refine ⟨hcl, ?_, ?_, ?_⟩
    · have hL := congrArg List.length hcl
      rw [List.length_map, List.length_reverse, List.length_zip, ← hlen] at hL
      simpa using hL
    · rw [hcl, Multiset.coe_reverse]
    · intro p
      rw [hcl, List.count_reverse]

/-- Witness: a two-job queue drained by a single worker. -/
theorem C4_claims_exactly_once_witness :
    ([['a'], ['b']] : List GoStr).length = ([['c'], ['d']] : List GoStr).length ∧
    1 ≤ ([['a'], ['b']] : List GoStr).length ∧
    1 ≤ ([['a'], ['b']] : List GoStr).length ∧
    (runPool (fun _ _ _ => none) false false
      (initState [['a'], ['b']] [['c'], ['d']] 1) [0, 0, 0, 0, 0]).jobs.src = none ∧
    (((runPool (fun _ _ _ => none) false false
        (initState [['a'], ['b']] [['c'], ['d']] 1) [0, 0, 0, 0, 0]).claimed.map Prod.snd =
      (([['a'], ['b']] : List GoStr).zip [['c'], ['d']]).reverse) ∧
    (runPool (fun _ _ _ => none) false false
        (initState [['a'], ['b']] [['c'], ['d']] 1) [0, 0, 0, 0, 0]).claimed.length =
      ([['a'], ['b']] : List GoStr).length ∧
    ((↑((runPool (fun _ _ _ => none) false false
        (initState [['a'], ['b']] [['c'], ['d']] 1) [0, 0, 0, 0, 0]).claimed.map Prod.snd) :
      Multiset (GoStr × GoStr)) = ↑(([['a'], ['b']] : List GoStr).zip [['c'], ['d']])) ∧
    ∀ p : GoStr × GoStr,
      ((runPool (fun _ _ _ => none) false false
          (initState [['a'], ['b']] [['c'], ['d']] 1) [0, 0, 0, 0, 0]).claimed.map
        Prod.snd).count p =
        (([['a'], ['b']] : List GoStr).zip [['c'], ['d']]).count p) :=
  ⟨by decide, by decide, by decide, by decide,
    C4_claims_exactly_once [['a'], ['b']] [['c'], ['d']] (fun _ _ _ => none) false false
      1 [0, 0, 0, 0, 0] (by decide) (by decide) (by decide) (by decide)⟩

/-! ### The aggregation loop on a channel that ends with a completion -/

theorem dispatchLoop_concat_completed (e : copyError) (he : e.err = none) :
    ∀ (front : List copyError) (ret : List GoStr),
      dispatchLoop (front ++ [e]) ((countCompleted (front ++ [e]) : Int)) ret =
        some (ret ++ (front ++ [e]).filterMap copyError.err)
  | [], ret => by
    simp [dispatchLoop, countCompleted, List.filter_cons, he, List.filterMap_cons]
  | f :: front, ret => by
    have ih := dispatchLoop_concat_completed e he front
    cases hf : f.err with
    | some er =>
      have hcc : countCompleted ((f :: front) ++ [e]) = countCompleted (front ++ [e]) := by
        simp [countCompleted, List.filter_cons, hf]
      rw [List.cons_append]
      simp only [dispatchLoop, hf]
      rw [← List.cons_append, hcc, ih (ret ++ [er])]
      simp [List.filterMap_cons, hf]
    | none =>
      have hcc : countCompleted ((f :: front) ++ [e]) = countCompleted (front ++ [e]) + 1 := by
        simp [countCompleted, List.filter_cons, hf]
      have hpos : 1 ≤ countCompleted (front ++ [e]) := by
        rw [countCompleted, List.filter_append]
        have hfe : List.filter (fun x => x.err.isNone) [e] = [e] := by simp [he]
        rw [hfe, List.length_append]
        simp
      rw [List.cons_append]
      simp only [dispatchLoop, hf]
      rw [← List.cons_append, hcc]
      have hne : (↑(countCompleted (front ++ [e]) + 1) : Int) - 1 ≠ 0 := by
        push_cast
        omega
      rw [if_neg hne]
      have harg : (↑(countCompleted (front ++ [e]) + 1) : Int) - 1 =
          (↑(countCompleted (front ++ [e])) : Int) := by
        push_cast
        ring
      rw [harg, ih ret]
      simp [List.filterMap_cons, hf]

theorem countCompleted_partition (W : Nat) :
    ∀ chan : List copyError, (∀ e ∈ chan, e.id < W) →
      countCompleted chan = ∑ j ∈ Finset.range W, countCompleted (wEvents j chan)
  | [], _ => by simp [countCompleted, wEvents]
  | e :: es, h => by
    have he : e.id < W := h e (List.mem_cons_self e es)
    have ih := countCompleted_partition W es (fun x hx => h x (List.mem_cons_of_mem e hx))
    have hsplit : ∀ j : Nat, wEvents j (e :: es) =
        (if e.id = j then [e] else []) ++ wEvents j es := by
      intro j
      by_cases hj : e.id = j
      · simp [wEvents, List.filter_cons, hj]
      · simp [wEvents, List.filter_cons, hj]
    cases hn : e.err.isNone with
    | true =>
      have h1 : countCompleted (e :: es) = countCompleted es + 1 := by
        simp [countCompleted, List.filter_cons, hn]
      have h2 : ∀ j : Nat, countCompleted (wEvents j (e :: es)) =
          (if e.id = j then 1 else 0) + countCompleted (wEvents j es) := by
        intro j
        rw [hsplit j]
        by_cases hj : e.id = j
        · simp only [if_pos hj]
          rw [countCompleted, countCompleted, List.filter_append]
          have hfe : List.filter (fun x => x.err.isNone) [e] = [e] := by simp [hn]
          rw [hfe, List.length_append]
          simp only [List.length_singleton]
        · simp only [if_neg hj]
          simp
      rw [h1, ih]
      have hcongr : ∑ j ∈ Finset.range W, countCompleted (wEvents j (e :: es)) =
          ∑ j ∈ Finset.range W,
            ((if e.id = j then 1 else 0) + countCompleted (wEvents j es)) :=
        Finset.sum_congr rfl (fun j _ => h2 j)
      rw [hcongr, Finset.sum_add_distrib,
        Finset.sum_ite_eq (Finset.range W) e.id (fun _ => 1),
        if_pos (Finset.mem_range.2 he)]
      omega
    | false =>
      have h1 : countCompleted (e :: es) = countCompleted es := by
        simp [countCompleted, List.filter_cons, hn]
      have h2 : ∀ j : Nat, countCompleted (wEvents j (e :: es)) =
          countCompleted (wEvents j es) := by
        intro j
        rw [hsplit j]
        by_cases hj : e.id = j
        · simp only [if_pos hj]
          rw [countCompleted, countCompleted, List.filter_append]
          have hfe : List.filter (fun x => x.err.isNone) [e] = [] := by simp [hn]
          rw [hfe]
          simp
        · simp only [if_neg hj]
          simp
      rw [h1, ih]
      exact Finset.sum_congr rfl (fun j _ => (h2 j).symm)

theorem filterMap_err_eq :
    ∀ chan : List copyError,
      chan.filterMap copyError.err =
        (chan.filter (fun e => e.err.isSome)).map (fun e => e.err.getD [])
  | [] => rfl
  | e :: es => by
    cases he : e.err with
    | none => simp [List.filterMap_cons, List.filter_cons, he, filterMap_err_eq es]
    | some er => simp [List.filterMap_cons, List.filter_cons, he, filterMap_err_eq es]

theorem acctInv_init (cf : GoStr → GoStr → Bool → Option GoStr) (link : Bool)
    (src dest : List GoStr) (w : Nat) : acctInv cf link (initState src dest w) := by
  have h0 : (List.replicate w WStatus.ready).filterMap statusPair = [] :=
    List.filterMap_eq_nil_iff.2 (fun a ha => by rw [List.eq_of_mem_replicate ha]; rfl)
  have h1 : inFlight (List.replicate w WStatus.ready) = 0 := by
    rw [inFlight, h0]
    rfl
  refine ⟨?_, ?_, ?_, ?_⟩
  · simp [initState, h1, failedPairs]
  · intro p hp
    simp [initState] at hp
  · intro e he
    simp [initState] at he
  · intro e he
    simp [initState] at he

theorem chanInv_init (src dest : List GoStr) (w : Nat) : chanInv (initState src dest w) := by
  intro j
  refine ⟨[], ?_, by simp⟩
  show wEvents j [] = [] ++ doneSuffix j (List.replicate w WStatus.ready)[j]?
  rw [List.getElem?_replicate]
  by_cases hj : j < w
  · rw [if_pos hj]
    rfl
  · rw [if_neg hj]
    rfl

theorem doneInv_init (src dest : List GoStr) (w : Nat) : doneInv (initState src dest w) := by
  rintro ⟨j, hj⟩
  rw [show (initState src dest w).workers = List.replicate w WStatus.ready from rfl,
    List.getElem?_replicate] at hj
  by_cases hjw : j < w
  · rw [if_pos hjw] at hj
    simp at hj
  · rw [if_neg hjw] at hj
    simp at hj

/-- Every completed continue-on-error run drains the queue, accounts every
pair as copied or failed, and its aggregation loop returns exactly the
reported errors in channel order. -/
theorem contTrue_final (cf : GoStr → GoStr → Bool → Option GoStr) (link : Bool)
    (src dest : List GoStr) (W : Nat) (sched : List Nat)
    (hlen : src.length = dest.length) (hW : 1 ≤ W)
    (hdone : allDone (runPool cf true link (initState src dest W) sched)) :
    ((runPool cf true link (initState src dest W) sched).claimed.map Prod.snd =
      (src.zip dest).reverse) ∧
    ((↑(runPool cf true link (initState src dest W) sched).copies +
        failedPairs (runPool cf true link (initState src dest W) sched).chan :
      Multiset (GoStr × GoStr)) = ↑(src.zip dest)) ∧
    (∀ p ∈ (runPool cf true link (initState src dest W) sched).copies,
      cf p.1 p.2 link = none) ∧
    (∀ e ∈ (runPool cf true link (initState src dest W) sched).chan,
      ∀ er, e.err = some er → cf e.src e.dest link = some er) ∧
    dispatchLoop (runPool cf true link (initState src dest W) sched).chan (W : Int) [] =
      some ((runPool cf true link (initState src dest W) sched).chan.filterMap
        copyError.err) := by
  have hstack := runPool_preserve cf true link (stackInv src dest)
    (fun s i h => stackInv_step src dest hlen cf true link s i h) sched _
    (stackInv_init src dest hlen W)
  have hacct := runPool_preserve cf true link (acctInv cf link)
    (fun s i h => acctInv_step cf true link s i h) sched _
    (acctInv_init cf link src dest W)
  have hCI := runPool_preserve cf true link chanInv
    (fun s i h => chanInv_step cf link s i h) sched _ (chanInv_init src dest W)
  have hDI := runPool_preserve cf true link doneInv
    (fun s i h => doneInv_step cf link s i h) sched _ (doneInv_init src dest W)
  have hlenW := runPool_preserve cf true link (fun s => s.workers.length = W)
    (fun s i h => lenInv_step cf true link s i W h) sched (initState src dest W)
    (by simp [initState])
  obtain ⟨hbal, hcop, hev, hid⟩ := hacct
  have hW0 : 0 < (runPool cf true link (initState src dest W) sched).workers.length := by
    rw [hlenW]
    omega
  have hw0 : (runPool cf true link (initState src dest W) sched).workers[0]? =
      some WStatus.done := by
    rw [List.getElem?_eq_getElem hW0, hdone _ (List.getElem_mem hW0)]
  have hsrcnone : (runPool cf true link (initState src dest W) sched).jobs.src = none :=
    hDI ⟨0, hw0⟩
  have hclaimed : (runPool cf true link (initState src dest W) sched).claimed.map
      Prod.snd = (src.zip dest).reverse := by
    rcases hstack with ⟨k, _, hsrc, _, _⟩ | ⟨_, _, hcl⟩
    · rw [hsrcnone] at hsrc
      cases hsrc
    · exact hcl
  have hIF : inFlight (runPool cf true link (initState src dest W) sched).workers = 0 := by
    rw [inFlight,
      List.filterMap_eq_nil_iff.2 (fun a ha => by rw [hdone a ha]; rfl)]
    rfl
  have hbal2 : (↑(runPool cf true link (initState src dest W) sched).copies +
      failedPairs (runPool cf true link (initState src dest W) sched).chan :
      Multiset (GoStr × GoStr)) = ↑(src.zip dest) := by
    have hb := hbal
    rw [hclaimed, Multiset.coe_reverse, hIF, add_zero] at hb
    exact hb.symm
  have hdones : ∀ j, j < W →
      (runPool cf true link (initState src dest W) sched).workers[j]? =
        some WStatus.done := by
    intro j hj
    have hjl : j < (runPool cf true link (initState src dest W) sched).workers.length := by
      rw [hlenW]
      exact hj
    rw [List.getElem?_eq_getElem hjl, hdone _ (List.getElem_mem hjl)]
  have hones : ∀ j, j < W →
      countCompleted (wEvents j (runPool cf true link (initState src dest W) sched).chan)
        = 1 := by
    intro j hj
    obtain ⟨fs, hfs, hall⟩ := hCI j
    rw [hdones j hj] at hfs
    rw [countCompleted, hfs]
    show (List.filter _ (fs ++ [completedEv j])).length = 1
    rw [List.filter_append]
    have h1 : List.filter (fun e => e.err.isNone) fs = [] :=
      List.filter_eq_nil_iff.2 (fun a ha => by
        have hs := hall a ha
        cases herr : a.err with
        | none => rw [herr] at hs; simp at hs
        | some er => simp [herr])
    rw [h1]
    rfl
  have hWc : countCompleted (runPool cf true link (initState src dest W) sched).chan
      = W := by
    rw [countCompleted_partition W _ (fun e he => by rw [← hlenW]; exact hid e he)]
    rw [Finset.sum_congr rfl (fun j hj => hones j (Finset.mem_range.1 hj))]
    simp
  have hne : (runPool cf true link (initState src dest W) sched).chan ≠ [] := by
    intro h0
    rw [h0] at hWc
    rw [show countCompleted [] = 0 from rfl] at hWc
    omega
  obtain ⟨front, e, hsplit⟩ :=
    (List.eq_nil_or_concat
      (runPool cf true link (initState src dest W) sched).chan).resolve_left hne
  rw [List.concat_eq_append] at hsplit
  have hemem : e ∈ (runPool cf true link (initState src dest W) sched).chan := by
    rw [hsplit]
    exact List.mem_append_right _ (List.mem_singleton.2 rfl)
  have heid : e.id < W := by
    rw [← hlenW]
    exact hid e hemem
  have hee : e.err = none := by
    obtain ⟨fs, hfs, _⟩ := hCI e.id
    rw [hdones e.id heid] at hfs
    have hwe : wEvents e.id (runPool cf true link (initState src dest W) sched).chan =
        wEvents e.id front ++ [e] := by
      rw [hsplit, wEvents_append]
      congr 1
      simp [wEvents]
    rw [hwe] at hfs
    have hlast := congrArg List.getLast? hfs
    rw [List.getLast?_concat,
      show doneSuffix e.id (some WStatus.done) = [completedEv e.id] from rfl,
      List.getLast?_concat] at hlast
    rw [Option.some.inj hlast]
    rfl
  refine ⟨hclaimed, hbal2, hcop, fun x hx er hxe => (hev x hx).2 er hxe, ?_⟩
  have hdisp := dispatchLoop_concat_completed e hee front []
  rw [← hsplit, hWc] at hdisp
  simpa using hdisp

/-- C3: scenario 4 - `jobs=3`, `continueOnError=true`, five files of which
only `/a/3` is unreadable.  In every completed run (schedule under which
all three workers returned), the other four files are the copies performed
(as a multiset, since assignment to workers is a race), and the
aggregation loop of `jobDispatcher` terminates with exactly one error
entry, the one naming the unreadable file - the failing worker kept
claiming and eventually sent its own completion message. -/
theorem C3_continue_on_error (sched : List Nat)
    (hdone : allDone (runPool cfC2 true false (initState srcC2 destC2 3) sched)) :
    ((↑(runPool cfC2 true false (initState srcC2 destC2 3) sched).copies :
        Multiset (GoStr × GoStr)) = ↑goodC3) ∧
    (jobDispatcher srcC2 destC2 false true false 3 cfC2 sched).1 = some [errC2] := by
  obtain ⟨hclaimed, hbal, hcop, hev, hdisp⟩ :=
    contTrue_final cfC2 false srcC2 destC2 3 sched (by decide) (by decide) hdone
  set chan := (runPool cfC2 true false (initState srcC2 destC2 3) sched).chan with hchan
  set cps := (runPool cfC2 true false (initState srcC2 destC2 3) sched).copies with hcps
  have hz : srcC2.zip destC2 =
      [("/a/1".toList, "/b/1".toList), ("/a/2".toList, "/b/2".toList),
       ("/a/3".toList, "/b/3".toList), ("/a/4".toList, "/b/4".toList),
       ("/a/5".toList, "/b/5".toList)] := by decide
  have hbadmem : ∀ q ∈ failedPairs chan, q = (badC2, "/b/3".toList) := by
    intro q hq
    rw [failedPairs, Multiset.mem_coe] at hq
    obtain ⟨ev, hev1, hev2⟩ := List.mem_map.1 hq
    have hevmem : ev ∈ chan := List.mem_of_mem_filter hev1
    have hevsome := List.of_mem_filter hev1
    obtain ⟨er, her⟩ := Option.isSome_iff_exists.1 hevsome
    have hcf : cfC2 ev.src ev.dest false = some er := hev ev hevmem er her
    simp only [cfC2] at hcf
    by_cases hb : ev.src = badC2
    · subst hev2
      have hqz : (ev.src, ev.dest) ∈ srcC2.zip destC2 := by
        have hle : failedPairs chan ≤ ↑(srcC2.zip destC2) := by
          rw [← hbal]
          exact Multiset.le_add_left _ _
        have hmem2 := Multiset.mem_of_le hle
          (by rw [failedPairs, Multiset.mem_coe]; exact hq)
        rwa [Multiset.mem_coe] at hmem2
      rw [hb] at hqz ⊢
      have hdest3 : ev.dest = "/b/3".toList := by
        rw [hz] at hqz
        simp only [List.mem_cons, List.not_mem_nil, or_false] at hqz
        rcases hqz with h | h | h | h | h
        · have hfst : badC2 = "/a/1".toList := congrArg Prod.fst h
          exact absurd hfst (by decide)
        · have hfst : badC2 = "/a/2".toList := congrArg Prod.fst h
          exact absurd hfst (by decide)
        · exact congrArg Prod.snd h
        · have hfst : badC2 = "/a/4".toList := congrArg Prod.fst h
          exact absurd hfst (by decide)
        · have hfst : badC2 = "/a/5".toList := congrArg Prod.fst h
          exact absurd hfst (by decide)
      rw [hdest3]
    · rw [if_neg (by simpa using hb)] at hcf
      cases hcf
  have hbadF : failedPairs chan = {(badC2, "/b/3".toList)} := by
    rw [Multiset.ext]
    intro a
    by_cases ha : a = (badC2, "/b/3".toList)
    · subst ha
      have hcnt := congrArg (Multiset.count (badC2, "/b/3".toList)) hbal
      rw [Multiset.count_add] at hcnt
      have hc0 : Multiset.count (badC2, "/b/3".toList) (↑cps : Multiset (GoStr × GoStr))
          = 0 := by
        rw [Multiset.count_eq_zero]
        intro hmem
        rw [Multiset.mem_coe] at hmem
        have hno := hcop _ hmem
        simp [cfC2, badC2] at hno
      have hc1 : Multiset.count (badC2, "/b/3".toList)
          (↑(srcC2.zip destC2) : Multiset (GoStr × GoStr)) = 1 := by
        rw [Multiset.coe_count, hz]
        decide
      rw [hc0, zero_add, hc1] at hcnt
      rw [hcnt, Multiset.count_singleton, if_pos rfl]
    · rw [Multiset.count_eq_zero.2, Multiset.count_eq_zero.2]
      · intro hmem
        rw [Multiset.mem_singleton] at hmem
        exact ha hmem
      · intro hmem
        exact ha (hbadmem a hmem)
  have hgood : (↑cps : Multiset (GoStr × GoStr)) = ↑goodC3 := by
    have hz2 : (↑goodC3 + {(badC2, "/b/3".toList)} : Multiset (GoStr × GoStr)) =
        ↑(srcC2.zip destC2) := by
      rw [show ({(badC2, "/b/3".toList)} : Multiset (GoStr × GoStr)) =
        (↑[(badC2, "/b/3".toList)] : Multiset (GoStr × GoStr)) from rfl]
      rw [Multiset.coe_add, Multiset.coe_eq_coe, hz]
      decide
    have hcancel : (↑cps + {(badC2, "/b/3".toList)} : Multiset (GoStr × GoStr)) =
        ↑goodC3 + {(badC2, "/b/3".toList)} := by
      rw [hz2, ← hbal, hbadF]
    exact add_right_cancel hcancel
  have herrs : chan.filterMap copyError.err = [errC2] := by
    rw [filterMap_err_eq]
    have hmapeq : (chan.filter (fun e => e.err.isSome)).map (fun e => (e.src, e.dest)) =
        [(badC2, "/b/3".toList)] := by
      have hF := hbadF
      rw [failedPairs] at hF
      exact Multiset.coe_eq_singleton.1 hF
    have hlen1 : (chan.filter (fun e => e.err.isSome)).length = 1 := by
      have hLc := congrArg List.length hmapeq
      simpa using hLc
    obtain ⟨e0, he0⟩ := List.length_eq_one.1 hlen1
    rw [he0] at hmapeq
    simp only [List.map_cons, List.map_nil] at hmapeq
    have hpair : (e0.src, e0.dest) = (badC2, "/b/3".toList) := by simpa using hmapeq
    have he0filter : e0 ∈ chan.filter (fun e => e.err.isSome) := by
      rw [he0]
      exact List.mem_singleton.2 rfl
    have he0mem : e0 ∈ chan := List.mem_of_mem_filter he0filter
    have hsomes := List.of_mem_filter he0filter
    obtain ⟨er, her⟩ := Option.isSome_iff_exists.1 hsomes
    have hcf := hev e0 he0mem er her
    have hs : e0.src = badC2 := congrArg Prod.fst hpair
    simp only [cfC2, hs] at hcf
    rw [if_pos (by simp)] at hcf
    obtain rfl : er = errC2 := (Option.some.inj hcf).symm
    rw [he0]
    simp [her]
  refine ⟨hgood, ?_⟩
  have hjd : (jobDispatcher srcC2 destC2 false true false 3 cfC2 sched).1 =
      dispatchLoop chan (((3 : Nat) : Int)) [] := rfl
  rw [hjd, hdisp, herrs]

/-- Witness: the schedule in which worker 0 drains the whole queue and the
other two workers then find it empty. -/
theorem C3_continue_on_error_witness :
    allDone (runPool cfC2 true false (initState srcC2 destC2 3) schedC3) ∧
    (((↑(runPool cfC2 true false (initState srcC2 destC2 3) schedC3).copies :
        Multiset (GoStr × GoStr)) = ↑goodC3) ∧
     (jobDispatcher srcC2 destC2 false true false 3 cfC2 schedC3).1 = some [errC2]) :=
  ⟨by decide, C3_continue_on_error schedC3 (by decide)⟩
